import Mathlib

/-!
# mater: camera transform and fixed-timestep main loop

A shallow embedding of `camera.go`, `scene.go` and the loop of
`examples/main/main.go`.

* The camera code is written once, over any carrier `F` that offers the
  `float64` operations the Go code uses (`Float64 F`).  The properties are
  proved over `Real64`: exact real arithmetic, extended by one `nonfinite`
  value standing for the IEEE 754 results `+Inf`, `-Inf` and `NaN`.
* The loop is embedded over `F64`, a model of IEEE 754 binary64 with
  round-to-nearest-even, infinities and NaN; Go's `int` counters are 64-bit
  two's complement integers.  The drain loop need not end in `float64`
  arithmetic, so it takes a bound on the number of passes (`fuel`) and returns
  `none` when the bound is reached.
-/

namespace mater

/-! ## Scalars -/

/-- The operations of Go's `float64` and of package `math` that the camera uses. -/
class Float64 (F : Type) extends Add F, Sub F, Mul F, Div F, Neg F where
  /-- An integer literal such as `2`, converted to `float64` -/
  lit : Nat → F
  /-- Go's `math.Cos` (argument in radians) -/
  Cos : F → F
  /-- Go's `math.Sin` (argument in radians) -/
  Sin : F → F

instance instOfNatFloat64 {F : Type} [Float64 F] {n : Nat} : OfNat F n := ⟨Float64.lit n⟩

/-- Exact reals extended by a single value for the IEEE 754 non-finite results. -/
inductive Ext (R : Type) where
  | fin (x : R)
  | nonfinite
  deriving DecidableEq

namespace Ext

variable {R : Type}

/-- Lift of a binary operation: a non-finite operand gives a non-finite result
(`Inf + x`, `Inf - Inf`, `Inf * 0`, `NaN * x`, ... are all `Inf` or `NaN`). -/
def map₂ (f : R → R → R) : Ext R → Ext R → Ext R
  | fin a, fin b => fin (f a b)
  | _, _ => nonfinite

/-- Lift of a unary operation; `cos` and `sin` of `Inf` or `NaN` are `NaN` -/
def map (f : R → R) : Ext R → Ext R
  | fin a => fin (f a)
  | nonfinite => nonfinite

/-- Division of `float64`: a finite value over zero is `+Inf`, `-Inf` or `NaN`,
never a panic.  (A finite value over an infinity would be `0`; the camera
only divides by its inputs, so with finite inputs that case is not reached
and it is kept non-finite here.) -/
def div [Div R] [Zero R] [DecidableEq R] : Ext R → Ext R → Ext R
  | fin a, fin b => if b = 0 then nonfinite else fin (a / b)
  | _, _ => nonfinite

end Ext

/-- The carrier of the camera theorems: reals and one non-finite value -/
abbrev Real64 : Type := Ext ℝ

noncomputable instance instFloat64Real64 : Float64 Real64 where
  add := Ext.map₂ (· + ·)
  sub := Ext.map₂ (· - ·)
  mul := Ext.map₂ (· * ·)
  div := Ext.div
  neg := Ext.map (fun x => -x)
  lit := fun n => Ext.fin (n : ℝ)
  Cos := Ext.map Real.cos
  Sin := Ext.map Real.sin

/-! ## package vect -/

/-- The type `vect.Vect`: a pair of `float64` -/
structure Vect (F : Type) where
  X : F
  Y : F

namespace vect

/-- Modelled from the spec: `vect.Add` of package `mater/vect`, which is not
among the sources; the spec reads it as `position + delta`, the
component-wise sum. -/
def Add {F : Type} [Float64 F] (a b : Vect F) : Vect F :=
  ⟨a.X + b.X, a.Y + b.Y⟩

end vect

/-! ## camera.go -/

/-- The struct `Camera` -/
structure Camera (F : Type) where
  ScreenSize : Vect F
  Position : Vect F
  Scale : Vect F
  Rotation : F

namespace Camera

variable {F : Type} [Float64 F]

/-- The body of `Move`, run on the receiver variable `cam` -/
def MoveBody (cam : Camera F) (delta : Vect F) : Camera F :=
  { cam with Position := vect.Add cam.Position delta }

/-- A call `c.Move(delta)`.  The method is declared `func (cam Camera) Move`,
with a value receiver and no result: the body runs on a copy of `c`, the
copy is dropped on return, and the caller's camera after the call is `c`. -/
def Move (c : Camera F) (delta : Vect F) : Camera F :=
  let _cam := MoveBody c delta
  c

/-- The method `WorldToScreen` -/
def WorldToScreen (cam : Camera F) (worldPos : Vect F) : Vect F :=
  let c := Float64.Cos (-cam.Rotation)
  let s := Float64.Sin (-cam.Rotation)
  let tx := worldPos.X - cam.Position.X
  let tx := tx + (cam.ScreenSize.X / 2) * cam.Scale.X
  let ty := worldPos.Y - cam.Position.Y
  let ty := ty + (cam.ScreenSize.Y / 2) * cam.Scale.Y
  let sx := c * tx - s * ty
  let sy := s * tx + c * ty
  ⟨sx * cam.Scale.X, sy * cam.Scale.Y⟩

/-- The method `ScreenToWorld`; its result type is `vect.Vect`, with no error -/
def ScreenToWorld (cam : Camera F) (screenPos : Vect F) : Vect F :=
  let c := Float64.Cos cam.Rotation
  let s := Float64.Sin cam.Rotation
  let tx := screenPos.X / cam.Scale.X
  let ty := screenPos.Y / cam.Scale.Y
  let sx := c * tx - s * ty
  let sy := s * tx + c * ty
  let sx := sx + cam.Position.X
  let sy := sy + cam.Position.Y
  let sx := sx - (cam.ScreenSize.X / 2) / cam.Scale.X
  let sy := sy - (cam.ScreenSize.Y / 2) / cam.Scale.Y
  ⟨sx, sy⟩

end Camera

/-- A point with finite coordinates -/
def finVect (x y : ℝ) : Vect Real64 := ⟨Ext.fin x, Ext.fin y⟩

/-- A camera with finite fields -/
def finCamera (screenSize position scale : ℝ × ℝ) (rotation : ℝ) : Camera Real64 :=
  { ScreenSize := finVect screenSize.1 screenSize.2
    Position := finVect position.1 position.2
    Scale := finVect scale.1 scale.2
    Rotation := Ext.fin rotation }


/-! ## float64 -/

/-- A value of Go's `float64` (IEEE 754 binary64).  `fin n` is the finite value
`n * 2^(-1074)`: every finite `float64` is an integer multiple of the smallest
subnormal `2^(-1074)`, and the integers `n` that occur are those with at most
53 significant bits and magnitude at most `maxFinite`.  `inf false` is `+Inf`,
`inf true` is `-Inf`.  The two zeros are not told apart (the loop neither
divides by a variable nor prints one). -/
inductive F64 where
  | fin (n : Int)
  | inf (neg : Bool)
  | nan
  deriving DecidableEq

namespace F64

/-- The least `l' >= l` with `m < 2^(2^l')`, searched upwards -/
def findLevel : Nat → Nat → Nat → Nat
  | 0, l, _ => l
  | f + 1, l, m => if m < 2 ^ 2 ^ l then l else findLevel f (l + 1) m

/-- Binary search for the position of the top bit of `m < 2^(2^k)` -/
def log2Aux : Nat → Nat → Nat → Nat
  | 0, _, acc => acc
  | k + 1, m, acc =>
    if m < 2 ^ 2 ^ k then log2Aux k m acc else log2Aux k (m / 2 ^ 2 ^ k) (acc + 2 ^ k)

/-- The position of the top bit of `m`: `2^(ilog2 m) <= m < 2^(ilog2 m + 1)` -/
def ilog2 (m : Nat) : Nat := log2Aux (findLevel m 0 m) m 0

/-- Round a magnitude, in units of `2^(-1074)`, to 53 significant bits, to
nearest, ties to even.  Magnitudes below `2^53` units (the subnormals and the
first binade of normals) are exact. -/
def roundNat (m : Nat) : Nat :=
  if m < 2 ^ 53 then m
  else
    let sh := ilog2 m - 52
    let q := m / 2 ^ sh
    let r := m % 2 ^ sh
    let half := 2 ^ (sh - 1)
    let q := if r > half ∨ (r = half ∧ q % 2 = 1) then q + 1 else q
    q * 2 ^ sh

/-- The largest finite `float64`, `(2^53 - 1) * 2^971`, in units of `2^(-1074)` -/
@[irreducible]
def maxFinite : Nat := (2 ^ 53 - 1) * 2 ^ 2045

/-- The `float64` nearest to the exact value `n * 2^(-1074)`; a rounded
magnitude above `maxFinite` overflows to an infinity. -/
def ofInt (n : Int) : F64 :=
  let m := roundNat n.natAbs
  if m > maxFinite then inf (decide (n < 0))
  else fin (if n < 0 then -(m : Int) else (m : Int))

/-- The operation `+` of `float64` -/
def add : F64 → F64 → F64
  | fin a, fin b => ofInt (a + b)
  | fin _, inf s => inf s
  | inf s, fin _ => inf s
  | inf s, inf t => if s = t then inf s else nan
  | _, _ => nan

/-- Unary minus of `float64` -/
def neg : F64 → F64
  | fin a => fin (-a)
  | inf s => inf (!s)
  | nan => nan

/-- The operation `-` of `float64` -/
def sub (a b : F64) : F64 := add a (neg b)

/-- The comparison `<=` of `float64`; false when an operand is NaN -/
def le : F64 → F64 → Bool
  | fin a, fin b => decide (a ≤ b)
  | fin _, inf s => !s
  | inf s, fin _ => s
  | inf s, inf t => s || !t
  | _, _ => false

/-- The comparison `<` of `float64`; false when an operand is NaN -/
def lt : F64 → F64 → Bool
  | fin a, fin b => decide (a < b)
  | fin _, inf s => !s
  | inf s, fin _ => s
  | inf s, inf t => s && !t
  | _, _ => false

/-- The `float64` nearest to the fraction `a / b` (`b > 0`), ties to even: the
conversion of an exact constant.  The quotient is cut at `2^(-1076)` with a
sticky last bit, and at least those two guard bits are rounded away. -/
def ofFrac (a b : Nat) : F64 :=
  let t := a * 2 ^ 1076
  let m := if t % b = 0 then t / b else (t / b) ||| 1
  let sh := max (ilog2 m - 52) 2
  let q := m / 2 ^ sh
  let r := m % 2 ^ sh
  let half := 2 ^ (sh - 1)
  let q := if r > half ∨ (r = half ∧ q % 2 = 1) then q + 1 else q
  let n := q * 2 ^ (sh - 2)
  if n > maxFinite then inf false else fin (n : Int)

/-- The exact value of a finite `float64` in units of `2^(-1074)` (0 for an
infinity or NaN) -/
def units : F64 → Int
  | fin n => n
  | _ => 0

instance instAdd : Add F64 := ⟨add⟩

instance instSub : Sub F64 := ⟨sub⟩

instance instLE : LE F64 := ⟨fun a b => le a b = true⟩

instance instLT : LT F64 := ⟨fun a b => lt a b = true⟩

instance instDecidableLE (a b : F64) : Decidable (a ≤ b) :=
  inferInstanceAs (Decidable (le a b = true))

instance instDecidableLT (a b : F64) : Decidable (a < b) :=
  inferInstanceAs (Decidable (lt a b = true))

/-- An integer literal, converted to `float64` -/
instance instOfNat {n : Nat} : OfNat F64 n := ⟨ofFrac n 1⟩

end F64

/-! ## scene.go -/

/-- The physics world of package `box2d`, seen from outside: the list of the
`dt` of the calls of `World.Step`, oldest first. -/
structure World where
  steps : List F64
  deriving DecidableEq

/-- The struct `Scene` (the camera pointer plays no part in `Update`) -/
structure Scene where
  World : World
  deriving DecidableEq

/-- The method `Scene.Update`: `scene.World.Step(dt)` -/
def Scene.Update (scene : Scene) (dt : F64) : Scene :=
  { scene with World := ⟨scene.World.steps ++ [dt]⟩ }

/-! ## examples/main/main.go: the loop of `main` -/

/-- The constant `expectedFrameTime = 1.0 / expectedFps` with `expectedFps =
30.0`: Go evaluates the constant expression exactly, to 1/30, and converts it
to `float64` where it is used. -/
def expectedFrameTime : F64 := F64.ofFrac 1 30

/-- The result of an operation of Go's `int` (64 bits, two's complement) -/
def wrapInt (x : Int) : Int :=
  (x + 9223372036854775808) % 18446744073709551616 - 9223372036854775808

/-- The variables the loop of `main` reads and writes -/
structure Loop where
  frameCount : Int
  updateFrameCount : Int
  acc : F64
  updateAcc : F64
  fps : Int
  updateFps : Int
  Paused : Bool
  SingleStep : Bool
  scene : Scene
  deriving DecidableEq

/-- The state at loop entry: the Go zero values, `Settings.Paused` from the
`-paused` flag -/
def Loop.init (paused : Bool) : Loop :=
  { frameCount := 0, updateFrameCount := 0, acc := 0, updateAcc := 0,
    fps := 0, updateFps := 0, Paused := paused, SingleStep := false,
    scene := ⟨⟨[]⟩⟩ }

/-- Lines 150-154: `frameCount++; acc += dt; updateAcc += dt` -/
def accumulate (s : Loop) (dt : F64) : Loop :=
  { s with frameCount := wrapInt (s.frameCount + 1), acc := s.acc + dt,
           updateAcc := s.updateAcc + dt }

/-- Lines 164-178: the body of the loop `for updateAcc >= expectedFrameTime` -/
def drainBody (s : Loop) : Loop :=
  let s := { s with updateFrameCount := wrapInt (s.updateFrameCount + 1) }
  let s := if s.acc > 1 then
      { s with updateFps := s.updateFrameCount, updateFrameCount := 0 }
    else s
  let s := if !s.Paused || s.SingleStep then
      let s := { s with scene := s.scene.Update expectedFrameTime }
      if s.SingleStep then { s with SingleStep := false } else s
    else s
  { s with updateAcc := s.updateAcc - expectedFrameTime }

/-- Lines 163-179: the loop `for updateAcc >= expectedFrameTime { ... }`, with
at most `fuel` passes through its body; `none` when the guard still holds
after `fuel` passes. -/
def drain : Nat → Loop → Option Loop
  | 0, s => if s.updateAcc ≥ expectedFrameTime then none else some s
  | fuel + 1, s =>
    if s.updateAcc ≥ expectedFrameTime then drain fuel (drainBody s) else some s

/-- Lines 185-196: the stats block after `Draw` and `SwapBuffers` (the
printing, off by `printFPS = false`, changes no variable) -/
def statsWindow (s : Loop) : Loop :=
  if s.acc > 1 then
    { s with fps := s.frameCount, frameCount := 0, acc := s.acc - 1 }
  else s

/-- One pass of the loop body with measured time difference `dt`, no console
command pending and no key or resize event delivered; `none` when the drain
loop does not end within `fuel` passes. -/
def iteration (fuel : Nat) (s : Loop) (dt : F64) : Option Loop :=
  (drain fuel (accumulate s dt)).map statsWindow

/-- One pass per delta, in order -/
def run (fuel : Nat) : Loop → List F64 → Option Loop
  | s, [] => some s
  | s, dt :: rest => (iteration fuel s dt).bind (fun s' => run fuel s' rest)

/-- The values the variable `acc` takes after each delta of a list, from a
start value, as long as the stats block does not subtract from it -/
def accSums (acc : F64) : List F64 → List F64
  | [] => []
  | d :: ds => (acc + d) :: accSums (acc + d) ds

/-! ### Bounds used by the termination theorems -/

/-- The value of `expectedFrameTime` in units of `2^(-1074)`:
`4803839602528529 * 2^(-57)`, just below 1/30 -/
@[irreducible]
def stepUnits : Nat := 4803839602528529 * 2 ^ 1017

/-- The delta of `2^47` seconds: the largest the termination theorems admit -/
def maxDelta : F64 := F64.ofFrac (2 ^ 47) 1

/-- The value of `maxDelta` in units of `2^(-1074)` -/
@[irreducible]
def deltaUnits : Nat := 2 ^ 1121

/-- The number of units `2^(-1074)` in one second -/
@[irreducible]
def unitsPerSecond : Nat := 2 ^ 1074

/-- The exact value of a finite `float64`, as a rational number -/
def F64.toRat (x : F64) : ℚ := (x.units : ℚ) / (unitsPerSecond : ℚ)

/-- The delta of 1024 seconds: the largest the counting theorem admits -/
def countDelta : F64 := F64.ofFrac 1024 1

/-- The value of `countDelta` in units of `2^(-1074)` -/
@[irreducible]
def countUnits : Nat := 2 ^ 1084

/-- A bound on the rounding error of one addition or subtraction of the drain
loop when every delta is at most `countDelta`, in units of `2^(-1074)` -/
@[irreducible]
def roundErr : Nat :=
  (stepUnits + countUnits + (stepUnits + countUnits) / 2 ^ 53) / 2 ^ 53

/-- The difference `1/30 - expectedFrameTime`, times 30, in units of
`2^(-1074)`: `unitsPerSecond = 30 * stepUnits + stepSlack` -/
@[irreducible]
def stepSlack : Nat := 2 ^ 1018

/-- The value `2^48` seconds in units of `2^(-1074)` -/
@[irreducible]
def sumBound : Nat := 2 ^ 1122

/-- A bound, in units of `2^(-1074)`, below which subtracting
`expectedFrameTime` lowers a `float64` -/
@[irreducible]
def drainBound : Nat := 2 ^ 1122 + 2 ^ 1070

/-! ## Properties of the scalars -/

section Scalars

@[simp] theorem fin_add (a b : ℝ) : (Ext.fin a + Ext.fin b : Real64) = Ext.fin (a + b) := rfl

@[simp] theorem fin_sub (a b : ℝ) : (Ext.fin a - Ext.fin b : Real64) = Ext.fin (a - b) := rfl

@[simp] theorem fin_mul (a b : ℝ) : (Ext.fin a * Ext.fin b : Real64) = Ext.fin (a * b) := rfl

@[simp] theorem fin_neg (a : ℝ) : (-Ext.fin a : Real64) = Ext.fin (-a) := rfl

@[simp] theorem fin_cos (a : ℝ) : Float64.Cos (Ext.fin a : Real64) = Ext.fin (Real.cos a) := rfl

@[simp] theorem fin_sin (a : ℝ) : Float64.Sin (Ext.fin a : Real64) = Ext.fin (Real.sin a) := rfl

@[simp] theorem lit_two : (2 : Real64) = Ext.fin 2 := by
  show Ext.fin ((2 : ℕ) : ℝ) = Ext.fin 2
  norm_num

theorem fin_div (a b : ℝ) (h : b ≠ 0) : (Ext.fin a / Ext.fin b : Real64) = Ext.fin (a / b) := by
  show Ext.div (Ext.fin a) (Ext.fin b) = _
  simp [Ext.div, h]

@[simp] theorem fin_div_two (a : ℝ) : (Ext.fin a / Ext.fin 2 : Real64) = Ext.fin (a / 2) :=
  fin_div a 2 two_ne_zero

@[simp] theorem fin_div_zero (a : ℝ) : (Ext.fin a / Ext.fin 0 : Real64) = Ext.nonfinite := by
  show Ext.div (Ext.fin a) (Ext.fin 0) = _
  simp [Ext.div]

@[simp] theorem nonfinite_add (a : Real64) : (Ext.nonfinite + a : Real64) = Ext.nonfinite := rfl

@[simp] theorem add_nonfinite (a : Real64) : (a + Ext.nonfinite : Real64) = Ext.nonfinite := by
  cases a <;> rfl

@[simp] theorem nonfinite_sub (a : Real64) : (Ext.nonfinite - a : Real64) = Ext.nonfinite := rfl

@[simp] theorem sub_nonfinite (a : Real64) : (a - Ext.nonfinite : Real64) = Ext.nonfinite := by
  cases a <;> rfl

@[simp] theorem nonfinite_mul (a : Real64) : (Ext.nonfinite * a : Real64) = Ext.nonfinite := rfl

@[simp] theorem mul_nonfinite (a : Real64) : (a * Ext.nonfinite : Real64) = Ext.nonfinite := by
  cases a <;> rfl

end Scalars

/-! ## The camera -/

/-- The result of `WorldToScreen` on finite inputs; the rotation is in radians. -/
theorem WorldToScreen_fin (ss pos sc : ℝ × ℝ) (rot x y : ℝ) :
    (finCamera ss pos sc rot).WorldToScreen (finVect x y) =
      finVect
        ((Real.cos (-rot) * (x - pos.1 + ss.1 / 2 * sc.1)
          - Real.sin (-rot) * (y - pos.2 + ss.2 / 2 * sc.2)) * sc.1)
        ((Real.sin (-rot) * (x - pos.1 + ss.1 / 2 * sc.1)
          + Real.cos (-rot) * (y - pos.2 + ss.2 / 2 * sc.2)) * sc.2) := by
  simp only [Camera.WorldToScreen, finCamera, finVect, fin_add, fin_sub, fin_mul, fin_neg,
    fin_cos, fin_sin, lit_two, fin_div_two]

/-- The result of `ScreenToWorld` on finite inputs with both scale components non-zero. -/
theorem ScreenToWorld_fin (ss pos sc : ℝ × ℝ) (rot x y : ℝ) (h1 : sc.1 ≠ 0) (h2 : sc.2 ≠ 0) :
    (finCamera ss pos sc rot).ScreenToWorld (finVect x y) =
      finVect
        (Real.cos rot * (x / sc.1) - Real.sin rot * (y / sc.2) + pos.1 - ss.1 / 2 / sc.1)
        (Real.sin rot * (x / sc.1) + Real.cos rot * (y / sc.2) + pos.2 - ss.2 / 2 / sc.2) := by
  simp only [Camera.ScreenToWorld, finCamera, finVect, fin_add, fin_sub, fin_mul,
    fin_cos, fin_sin, lit_two, fin_div_two, fin_div _ _ h1, fin_div _ _ h2]

theorem finVect_inj {a b c d : ℝ} : finVect a b = finVect c d ↔ a = c ∧ b = d := by
  simp [finVect]

/-- With non-zero scale, `WorldToScreen` followed by `ScreenToWorld` moves a
point by `(ScreenSize / 2) * Scale - (ScreenSize / 2) / Scale`. -/
theorem ScreenToWorld_WorldToScreen_fin (ss pos sc : ℝ × ℝ) (rot x y : ℝ)
    (h1 : sc.1 ≠ 0) (h2 : sc.2 ≠ 0) :
    (finCamera ss pos sc rot).ScreenToWorld ((finCamera ss pos sc rot).WorldToScreen (finVect x y))
      = finVect (x + (ss.1 / 2 * sc.1 - ss.1 / 2 / sc.1))
          (y + (ss.2 / 2 * sc.2 - ss.2 / 2 / sc.2)) := by
  rw [WorldToScreen_fin, ScreenToWorld_fin _ _ _ _ _ _ h1 h2, finVect_inj]
  have hcs := Real.cos_sq_add_sin_sq rot
  rw [Real.cos_neg, Real.sin_neg, mul_div_assoc, mul_div_assoc, div_self h1, div_self h2]
  constructor
  · linear_combination (x - pos.1 + ss.1 / 2 * sc.1) * hcs
  · linear_combination (y - pos.2 + ss.2 / 2 * sc.2) * hcs

/-- C10: with Rotation = 0, Scale = {1,1}, Position = {0,0} and ScreenSize =
{0,0}, WorldToScreen returns every (finite) point unchanged. -/
theorem WorldToScreen_identity (x y : ℝ) :
    (finCamera (0, 0) (0, 0) (1, 1) 0).WorldToScreen (finVect x y) = finVect x y := by
  rw [WorldToScreen_fin, finVect_inj]
  simp

/-- C1, at the default camera of `main` (ScreenSize {800,600}, Position {0,0},
Scale {32,32}, angle 0) and the world origin: WorldToScreen followed by
ScreenToWorld returns {12787.5, 9590.625}, not the origin; the half-screen
offset is multiplied by the scale on the way out and divided by it on the way
back. -/
theorem roundTrip_default_camera :
    (finCamera (800, 600) (0, 0) (32, 32) 0).ScreenToWorld
        ((finCamera (800, 600) (0, 0) (32, 32) 0).WorldToScreen (finVect 0 0))
      = finVect 12787.5 9590.625
    ∧ (finCamera (800, 600) (0, 0) (32, 32) 0).ScreenToWorld
        ((finCamera (800, 600) (0, 0) (32, 32) 0).WorldToScreen (finVect 0 0))
      ≠ finVect 0 0 := by
  have e : (finCamera (800, 600) (0, 0) (32, 32) 0).ScreenToWorld
        ((finCamera (800, 600) (0, 0) (32, 32) 0).WorldToScreen (finVect 0 0))
      = finVect 12787.5 9590.625 := by
    rw [WorldToScreen_fin, ScreenToWorld_fin _ _ _ _ _ _ (by norm_num) (by norm_num), finVect_inj]
    constructor <;> norm_num
  refine ⟨e, ?_⟩
  rw [e, Ne, finVect_inj]
  norm_num

/-- C3, at the camera with Position {1,1}: after `Move({3,-2})` the camera is
still at Position {1,1}, not at {4,-1}; the method has a value receiver. -/
theorem Move_leaves_position :
    ((finCamera (0, 0) (1, 1) (1, 1) 0).Move (finVect 3 (-2))).Position = finVect 1 1
    ∧ ((finCamera (0, 0) (1, 1) (1, 1) 0).Move (finVect 3 (-2))).Position ≠ finVect 4 (-1) := by
  have e : ((finCamera (0, 0) (1, 1) (1, 1) 0).Move (finVect 3 (-2))).Position = finVect 1 1 :=
    rfl
  refine ⟨e, ?_⟩
  rw [e, Ne, finVect_inj]
  norm_num

/-- The caller's camera is the same after every call of `Move`. -/
theorem Move_eq_self {F : Type} [Float64 F] (c : Camera F) (delta : Vect F) :
    c.Move delta = c := rfl

/-- C4, at Scale = {0, 5} (other fields zero) and the screen point {1,1}:
ScreenToWorld returns a point, the one with two non-finite coordinates that
the division by the zero scale component produces. -/
theorem ScreenToWorld_zero_scale_example :
    (finCamera (0, 0) (0, 0) (0, 5) 0).ScreenToWorld (finVect 1 1)
      = ⟨Ext.nonfinite, Ext.nonfinite⟩ := by
  simp [Camera.ScreenToWorld, finCamera, finVect]

/-- C4 as amended: for every camera with finite fields and Scale.X = 0 or
Scale.Y = 0 and every finite screen point, ScreenToWorld signals nothing: it
returns the point that the division by the zero scale component produces,
whose two coordinates are non-finite. -/
theorem ScreenToWorld_zero_scale (ss pos sc : ℝ × ℝ) (rot x y : ℝ)
    (h : sc.1 = 0 ∨ sc.2 = 0) :
    (finCamera ss pos sc rot).ScreenToWorld (finVect x y) = ⟨Ext.nonfinite, Ext.nonfinite⟩ := by
  simp only [Camera.ScreenToWorld, finCamera, finVect, fin_cos, fin_sin]
  rcases h with h | h
  · rw [h]
    simp
  · rw [h]
    simp

theorem ScreenToWorld_zero_scale_witness :
    (((3 : ℝ), (0 : ℝ)).1 = 0 ∨ ((3 : ℝ), (0 : ℝ)).2 = 0) ∧
    (finCamera (800, 600) (0, 0) (3, 0) 0).ScreenToWorld (finVect 1 1)
      = ⟨Ext.nonfinite, Ext.nonfinite⟩ :=
  ⟨Or.inr rfl, ScreenToWorld_zero_scale (800, 600) (0, 0) (3, 0) 0 1 1 (Or.inr rfl)⟩

theorem cos_360_ne_one : Real.cos 360 ≠ 1 := by
  intro h
  rw [Real.cos_eq_one_iff] at h
  obtain ⟨n, hn⟩ := h
  have h1 := Real.pi_gt_d2
  have h2 := Real.pi_lt_d2
  rcases le_or_lt n 57 with hle | hgt
  · have : (n : ℝ) ≤ 57 := by exact_mod_cast hle
    nlinarith
  · have : (58 : ℝ) ≤ n := by exact_mod_cast hgt
    nlinarith

/-- C5, at Rotation = 360, Scale = {1,1}, Position = {0,0}, ScreenSize = {0,0}
and the point {1,0}: WorldToScreen returns {cos 360, -sin 360} with 360 read in
radians, which is not {1,0}. -/
theorem WorldToScreen_rotation_360 :
    (finCamera (0, 0) (0, 0) (1, 1) 360).WorldToScreen (finVect 1 0)
      = finVect (Real.cos 360) (-Real.sin 360)
    ∧ (finCamera (0, 0) (0, 0) (1, 1) 360).WorldToScreen (finVect 1 0) ≠ finVect 1 0 := by
  have e : (finCamera (0, 0) (0, 0) (1, 1) 360).WorldToScreen (finVect 1 0)
      = finVect (Real.cos 360) (-Real.sin 360) := by
    rw [WorldToScreen_fin, finVect_inj]
    simp
  refine ⟨e, ?_⟩
  rw [e, Ne, finVect_inj]
  intro h
  exact cos_360_ne_one h.1


/-! ## float64 rounding -/

namespace F64

theorem findLevel_spec (f l m : Nat) (h : m < 2 ^ 2 ^ (l + f)) :
    m < 2 ^ 2 ^ findLevel f l m := by
  induction f generalizing l with
  | zero => simpa [findLevel] using h
  | succ f ih =>
    unfold findLevel
    split_ifs with hm
    · exact hm
    · exact ih (l + 1) (by rwa [show l + 1 + f = l + (f + 1) by omega])

theorem log2Aux_spec (k m acc : Nat) (h1 : 1 ≤ m) (h2 : m < 2 ^ 2 ^ k) :
    ∃ L, log2Aux k m acc = acc + L ∧ 2 ^ L ≤ m ∧ m < 2 ^ (L + 1) := by
  induction k generalizing m acc with
  | zero =>
    refine ⟨0, rfl, by simpa using h1, ?_⟩
    simpa using h2
  | succ k ih =>
    unfold log2Aux
    split_ifs with hm
    · exact ih m acc h1 hm
    · have hpos : 0 < 2 ^ 2 ^ k := Nat.pow_pos (by norm_num)
      have hge : 2 ^ 2 ^ k ≤ m := not_lt.mp hm
      have hsq : 2 ^ 2 ^ (k + 1) = 2 ^ 2 ^ k * 2 ^ 2 ^ k := by
        rw [pow_succ, pow_mul, sq]
      have h1' : 1 ≤ m / 2 ^ 2 ^ k := (Nat.one_le_div_iff hpos).mpr hge
      have h2' : m / 2 ^ 2 ^ k < 2 ^ 2 ^ k := by
        rw [Nat.div_lt_iff_lt_mul hpos, ← hsq]
        exact h2
      obtain ⟨L, hL, hlo, hhi⟩ := ih (m / 2 ^ 2 ^ k) (acc + 2 ^ k) h1' h2'
      refine ⟨2 ^ k + L, by rw [hL]; ring, ?_, ?_⟩
      · rw [pow_add]
        calc 2 ^ 2 ^ k * 2 ^ L ≤ 2 ^ 2 ^ k * (m / 2 ^ 2 ^ k) := Nat.mul_le_mul_left _ hlo
          _ ≤ m := Nat.mul_div_le m _
      · have : m < 2 ^ 2 ^ k * (m / 2 ^ 2 ^ k + 1) := by
          have := Nat.div_add_mod m (2 ^ 2 ^ k)
          have := Nat.mod_lt m hpos
          rw [Nat.mul_add]
          omega
        calc m < 2 ^ 2 ^ k * (m / 2 ^ 2 ^ k + 1) := this
          _ ≤ 2 ^ 2 ^ k * 2 ^ (L + 1) := Nat.mul_le_mul_left _ hhi
          _ = 2 ^ (2 ^ k + L + 1) := by rw [← pow_add]; ring_nf

/-- The search `ilog2` finds the position of the top bit. -/
theorem ilog2_spec (m : Nat) (h : 1 ≤ m) : 2 ^ ilog2 m ≤ m ∧ m < 2 ^ (ilog2 m + 1) := by
  have hlev : m < 2 ^ 2 ^ findLevel m 0 m := by
    apply findLevel_spec
    rw [Nat.zero_add]
    calc m < 2 ^ m := Nat.lt_two_pow m
      _ ≤ 2 ^ 2 ^ m := Nat.pow_le_pow_right (by norm_num) (Nat.lt_two_pow m).le
  obtain ⟨L, hL, hlo, hhi⟩ := log2Aux_spec (findLevel m 0 m) m 0 h hlev
  have : ilog2 m = L := by
    unfold ilog2
    rw [hL, Nat.zero_add]
  rw [this]
  exact ⟨hlo, hhi⟩

theorem ilog2_eq_log2 (m : Nat) (h : 1 ≤ m) : ilog2 m = Nat.log2 m := by
  obtain ⟨hlo, hhi⟩ := ilog2_spec m h
  have hne : m ≠ 0 := by omega
  apply le_antisymm
  · exact (Nat.le_log2 hne).mpr hlo
  · have := (Nat.log2_lt hne).mpr hhi
    omega

/-- Rounding adds at most one part in `2^53`. -/
theorem roundNat_le (m : Nat) : roundNat m ≤ m + m / 2 ^ 53 := by
  unfold roundNat
  split_ifs with h
  · exact Nat.le_add_right _ _
  · have h53 : 2 ^ 53 ≤ m := not_lt.mp h
    have hm : 1 ≤ m := le_trans (Nat.one_le_two_pow) h53
    obtain ⟨hlo, hhi⟩ := ilog2_spec m hm
    have hL : 53 ≤ ilog2 m := by
      have : 2 ^ 53 < 2 ^ (ilog2 m + 1) := lt_of_le_of_lt h53 hhi
      have := (Nat.pow_lt_pow_iff_right (by norm_num : 1 < 2)).mp this
      omega
    generalize ilog2 m = L at hlo hhi hL
    obtain ⟨t, rfl⟩ : ∃ t, L = t + 53 := ⟨L - 53, by omega⟩
    have hsh : t + 53 - 52 = t + 1 := by omega
    simp only [hsh, Nat.add_sub_cancel]
    have hP : 2 ^ (t + 1) = 2 * 2 ^ t := by rw [pow_succ]; ring
    have hhalf : 2 ^ t ≤ m / 2 ^ 53 := by
      rw [Nat.le_div_iff_mul_le (by positivity), ← pow_add]
      exact hlo
    have hdm := Nat.div_add_mod m (2 ^ (t + 1))
    split_ifs with hup
    · have hr : 2 ^ t ≤ m % 2 ^ (t + 1) := by
        rcases hup with hup | hup
        · exact hup.le
        · exact hup.1.ge
      rw [Nat.add_mul, Nat.one_mul, Nat.mul_comm]
      omega
    · calc m / 2 ^ (t + 1) * 2 ^ (t + 1) ≤ m := Nat.div_mul_le_self _ _
        _ ≤ m + m / 2 ^ 53 := Nat.le_add_right _ _

/-- Rounding removes at most one part in `2^53`. -/
theorem roundNat_ge (m : Nat) : m ≤ roundNat m + m / 2 ^ 53 := by
  unfold roundNat
  split_ifs with h
  · exact Nat.le_add_right _ _
  · have h53 : 2 ^ 53 ≤ m := not_lt.mp h
    have hm : 1 ≤ m := le_trans (Nat.one_le_two_pow) h53
    obtain ⟨hlo, hhi⟩ := ilog2_spec m hm
    have hL : 53 ≤ ilog2 m := by
      have : 2 ^ 53 < 2 ^ (ilog2 m + 1) := lt_of_le_of_lt h53 hhi
      have := (Nat.pow_lt_pow_iff_right (by norm_num : 1 < 2)).mp this
      omega
    generalize ilog2 m = L at hlo hhi hL
    obtain ⟨t, rfl⟩ : ∃ t, L = t + 53 := ⟨L - 53, by omega⟩
    have hsh : t + 53 - 52 = t + 1 := by omega
    simp only [hsh, Nat.add_sub_cancel]
    have hP : 2 ^ (t + 1) = 2 * 2 ^ t := by rw [pow_succ]; ring
    have hhalf : 2 ^ t ≤ m / 2 ^ 53 := by
      rw [Nat.le_div_iff_mul_le (by positivity), ← pow_add]
      exact hlo
    have hdm := Nat.div_add_mod m (2 ^ (t + 1))
    have hlt := Nat.mod_lt m (show 0 < 2 ^ (t + 1) by positivity)
    split_ifs with hup
    · rw [Nat.add_mul, Nat.one_mul, Nat.mul_comm]
      omega
    · have hr : m % 2 ^ (t + 1) ≤ 2 ^ t := by
        by_contra hc
        exact hup (Or.inl (not_le.mp hc))
      rw [Nat.mul_comm]
      omega

theorem ofInt_natCast (n : Nat) (h : n + n / 2 ^ 53 ≤ maxFinite) :
    ofInt (n : Int) = fin (roundNat n : Int) := by
  have hr := roundNat_le n
  unfold ofInt
  simp only [Int.natAbs_ofNat]
  rw [if_neg (by omega), if_neg (by omega)]

theorem fin_add_fin (a b : Int) : fin a + fin b = ofInt (a + b) := by
  show add (fin a) (fin b) = ofInt (a + b)
  rw [add]

theorem fin_sub_fin (a b : Int) : fin a - fin b = ofInt (a + -b) := by
  show sub (fin a) (fin b) = ofInt (a + -b)
  rw [sub, neg, add]

theorem fin_le_fin (a b : Int) : (fin a ≤ fin b) ↔ a ≤ b := by
  show le (fin a) (fin b) = true ↔ a ≤ b
  simp [le]

theorem fin_lt_fin (a b : Int) : (fin a < fin b) ↔ a < b := by
  show lt (fin a) (fin b) = true ↔ a < b
  simp [lt]

theorem zero_eq : (0 : F64) = fin 0 := by decide!

theorem one_eq : (1 : F64) = fin ((2 ^ 1074 : Nat) : Int) := by decide!

/-- A value between zero and a finite value is finite and non-negative. -/
theorem eq_fin_of_le (x : F64) (b : Int) (h0 : (0 : F64) ≤ x) (h1 : x ≤ fin b) :
    ∃ a : Nat, x = fin (a : Int) ∧ (a : Int) ≤ b := by
  rw [zero_eq] at h0
  cases x with
  | fin n =>
    rw [fin_le_fin] at h0 h1
    exact ⟨n.toNat, by rw [Int.toNat_of_nonneg h0], by rw [Int.toNat_of_nonneg h0]; exact h1⟩
  | inf s =>
    exfalso
    cases s
    · exact (Bool.false_ne_true h1).elim
    · exact (Bool.false_ne_true h0).elim
  | nan => exact (Bool.false_ne_true h0).elim

end F64

/-! ## The loop -/

theorem expectedFrameTime_eq : expectedFrameTime = F64.fin (stepUnits : Int) := by decide!

theorem maxDelta_eq : maxDelta = F64.fin (deltaUnits : Int) := by decide!

theorem drainBound_div : drainBound / 2 ^ 53 < stepUnits := by decide!

theorem drainBound_le : drainBound + drainBound / 2 ^ 53 ≤ F64.maxFinite := by decide!

theorem sumBound_le : sumBound + sumBound / 2 ^ 53 ≤ drainBound := by decide!

theorem sumBound_eq : sumBound = deltaUnits + deltaUnits := by decide!

theorem stepUnits_le : stepUnits ≤ deltaUnits := by decide!

theorem stepUnits_pos : 0 < stepUnits := by decide!

/-- Subtracting `expectedFrameTime` from a value up to `drainBound` that is at
least `expectedFrameTime` gives a smaller non-negative finite value. -/
theorem sub_step (B a : Nat) (hB : B ≤ drainBound) (h1 : stepUnits ≤ a) (h2 : a ≤ B) :
    F64.fin (a : Int) - expectedFrameTime = F64.fin (F64.roundNat (a - stepUnits) : Int)
    ∧ F64.roundNat (a - stepUnits) < a
    ∧ F64.roundNat (a - stepUnits) + stepUnits ≤ a + B / 2 ^ 53
    ∧ a ≤ F64.roundNat (a - stepUnits) + stepUnits + B / 2 ^ 53 := by
  have hd : (a - stepUnits) / 2 ^ 53 ≤ B / 2 ^ 53 :=
    Nat.div_le_div_right (by omega)
  have hd' : B / 2 ^ 53 ≤ drainBound / 2 ^ 53 := Nat.div_le_div_right hB
  have hr := F64.roundNat_le (a - stepUnits)
  have hr' := F64.roundNat_ge (a - stepUnits)
  have h3 := drainBound_div
  have h4 := drainBound_le
  refine ⟨?_, by omega, by omega, by omega⟩
  rw [expectedFrameTime_eq, F64.fin_sub_fin]
  have e : (a : Int) + -(stepUnits : Int) = ((a - stepUnits : Nat) : Int) := by omega
  rw [e, F64.ofInt_natCast _ (by omega)]

/-- Adding two non-negative finite values with exact sum up to `sumBound` -/
theorem add_fin (B a d : Nat) (hB : B ≤ sumBound) (h : a + d ≤ B) :
    F64.fin (a : Int) + F64.fin (d : Int) = F64.fin (F64.roundNat (a + d) : Int)
    ∧ F64.roundNat (a + d) ≤ B + B / 2 ^ 53
    ∧ B + B / 2 ^ 53 ≤ drainBound
    ∧ F64.roundNat (a + d) ≤ a + d + B / 2 ^ 53
    ∧ a + d ≤ F64.roundNat (a + d) + B / 2 ^ 53 := by
  have hd : (a + d) / 2 ^ 53 ≤ B / 2 ^ 53 := Nat.div_le_div_right h
  have hd' : B / 2 ^ 53 ≤ sumBound / 2 ^ 53 := Nat.div_le_div_right hB
  have hr := F64.roundNat_le (a + d)
  have hr' := F64.roundNat_ge (a + d)
  have h3 := sumBound_le
  have h4 := drainBound_le
  refine ⟨?_, by omega, by omega, by omega, by omega⟩
  rw [F64.fin_add_fin]
  have e : (a : Int) + (d : Int) = ((a + d : Nat) : Int) := by omega
  rw [e, F64.ofInt_natCast _ (by omega)]

theorem drain_of_not_ge (fuel : Nat) (s : Loop) (h : ¬ s.updateAcc ≥ expectedFrameTime) :
    drain fuel s = some s := by
  cases fuel <;> simp [drain, h]

theorem drain_of_ge (fuel : Nat) (s : Loop) (h : s.updateAcc ≥ expectedFrameTime) :
    drain (fuel + 1) s = drain fuel (drainBody s) := by
  simp [drain, h]

theorem drainBody_updateAcc (s : Loop) :
    (drainBody s).updateAcc = s.updateAcc - expectedFrameTime := by
  unfold drainBody
  dsimp only
  split_ifs <;> rfl

theorem drainBody_acc (s : Loop) : (drainBody s).acc = s.acc := by
  unfold drainBody
  dsimp only
  split_ifs <;> rfl

theorem drainBody_frameCount (s : Loop) : (drainBody s).frameCount = s.frameCount := by
  unfold drainBody
  dsimp only
  split_ifs <;> rfl

theorem drainBody_fps (s : Loop) : (drainBody s).fps = s.fps := by
  unfold drainBody
  dsimp only
  split_ifs <;> rfl

theorem drainBody_Paused (s : Loop) : (drainBody s).Paused = s.Paused := by
  unfold drainBody
  dsimp only
  split_ifs <;> rfl

theorem iterate_acc (n : ℕ) (s : Loop) : (drainBody^[n] s).acc = s.acc := by
  induction n with
  | zero => rfl
  | succ n ih => rw [Function.iterate_succ_apply', drainBody_acc, ih]

theorem iterate_frameCount (n : ℕ) (s : Loop) :
    (drainBody^[n] s).frameCount = s.frameCount := by
  induction n with
  | zero => rfl
  | succ n ih => rw [Function.iterate_succ_apply', drainBody_frameCount, ih]

theorem iterate_fps (n : ℕ) (s : Loop) : (drainBody^[n] s).fps = s.fps := by
  induction n with
  | zero => rfl
  | succ n ih => rw [Function.iterate_succ_apply', drainBody_fps, ih]

theorem iterate_Paused (n : ℕ) (s : Loop) : (drainBody^[n] s).Paused = s.Paused := by
  induction n with
  | zero => rfl
  | succ n ih => rw [Function.iterate_succ_apply', drainBody_Paused, ih]

/-- From a finite non-negative `updateAcc` up to a bound `B <= drainBound` the
drain loop ends: it runs its body some `k` times, the guard holding before
each run, and leaves a finite non-negative value below `expectedFrameTime`,
which differs from `updateAcc - k * expectedFrameTime` by at most `k` rounding
errors of `B / 2^53`. -/
theorem drain_spec (B : Nat) (hB : B ≤ drainBound) (a : Nat) : ∀ s : Loop,
    s.updateAcc = F64.fin (a : Int) → a ≤ B →
    ∃ k b : Nat, (∀ fuel, k ≤ fuel → drain fuel s = some (drainBody^[k] s))
      ∧ (∀ j < k, (drainBody^[j] s).updateAcc ≥ expectedFrameTime)
      ∧ (drainBody^[k] s).updateAcc = F64.fin (b : Int) ∧ b < stepUnits
      ∧ b + k * stepUnits ≤ a + k * (B / 2 ^ 53)
      ∧ a ≤ b + k * stepUnits + k * (B / 2 ^ 53) := by
  induction a using Nat.strong_induction_on with
  | _ a ih =>
    intro s hs ha
    by_cases hg : stepUnits ≤ a
    · obtain ⟨e1, e2, e3, e4⟩ := sub_step B a hB hg ha
      have hguard : s.updateAcc ≥ expectedFrameTime := by
        rw [hs, expectedFrameTime_eq]
        exact (F64.fin_le_fin _ _).mpr (by exact_mod_cast hg)
      have hs' : (drainBody s).updateAcc = F64.fin (F64.roundNat (a - stepUnits) : Int) := by
        rw [drainBody_updateAcc, hs, e1]
      obtain ⟨k, b, hk, hj, hb, hlt, hup, hlo⟩ := ih _ e2 (drainBody s) hs' (by omega)
      refine ⟨k + 1, b, ?_, ?_, ?_, hlt, ?_, ?_⟩
      · intro fuel hf
        obtain ⟨f, rfl⟩ : ∃ f, fuel = f + 1 := ⟨fuel - 1, by omega⟩
        rw [drain_of_ge f s hguard, hk f (by omega), Function.iterate_succ_apply]
      · intro j hjlt
        cases j with
        | zero => exact hguard
        | succ j =>
          rw [Function.iterate_succ_apply]
          exact hj j (by omega)
      · rw [Function.iterate_succ_apply]
        exact hb
      · rw [Nat.add_mul, Nat.add_mul, Nat.one_mul, Nat.one_mul]
        omega
      · rw [Nat.add_mul, Nat.add_mul, Nat.one_mul, Nat.one_mul]
        omega
    · have hguard : ¬ s.updateAcc ≥ expectedFrameTime := by
        rw [hs, expectedFrameTime_eq]
        intro h
        have := (F64.fin_le_fin _ _).mp h
        omega
      exact ⟨0, a, fun fuel _ => drain_of_not_ge fuel s hguard,
        fun j hj => absurd hj (Nat.not_lt_zero j), hs, by omega, by omega, by omega⟩

theorem drainBody_scene (s : Loop) :
    (drainBody s).scene
      = if (!s.Paused || s.SingleStep) = true then s.scene.Update expectedFrameTime
        else s.scene := by
  unfold drainBody
  dsimp only
  cases s.Paused <;> cases s.SingleStep <;> split_ifs <;> rfl

/-- After a pass through the drain body `SingleStep` is false. -/
theorem drainBody_SingleStep (s : Loop) : (drainBody s).SingleStep = false := by
  unfold drainBody
  dsimp only
  cases s.Paused <;> cases s.SingleStep <;> split_ifs <;>
    first
      | rfl
      | (exfalso; rename_i h; exact h rfl)

theorem drainBody_steps_unpaused (s : Loop) (h : s.Paused = false) :
    (drainBody s).scene.World.steps = s.scene.World.steps ++ [expectedFrameTime] := by
  rw [drainBody_scene, h]
  simp only [Bool.not_false, Bool.true_or, if_true]
  rfl

theorem iterate_steps_unpaused (n : ℕ) (s : Loop) (h : s.Paused = false) :
    (drainBody^[n] s).scene.World.steps
      = s.scene.World.steps ++ List.replicate n expectedFrameTime := by
  induction n with
  | zero => simp
  | succ n ih =>
    rw [Function.iterate_succ_apply',
      drainBody_steps_unpaused _ (by rw [iterate_Paused]; exact h), ih,
      List.replicate_succ', List.append_assoc]

theorem drainBody_singleStep (s : Loop) (hp : s.Paused = true) (hs : s.SingleStep = true) :
    (drainBody s).scene.World.steps = s.scene.World.steps ++ [expectedFrameTime]
    ∧ (drainBody s).SingleStep = false := by
  rw [drainBody_scene, hp, hs]
  simp only [Bool.not_true, Bool.false_or, if_true]
  exact ⟨rfl, drainBody_SingleStep s⟩

theorem drainBody_paused (s : Loop) (hp : s.Paused = true) (hs : s.SingleStep = false) :
    (drainBody s).scene.World.steps = s.scene.World.steps
    ∧ (drainBody s).SingleStep = false := by
  rw [drainBody_scene, hp, hs]
  simp only [Bool.not_true, Bool.false_or, Bool.false_eq_true, if_false, true_and]
  exact drainBody_SingleStep s

theorem iterate_paused (n : ℕ) (s : Loop) (hp : s.Paused = true) (hs : s.SingleStep = false) :
    (drainBody^[n] s).scene.World.steps = s.scene.World.steps
    ∧ (drainBody^[n] s).SingleStep = false := by
  induction n with
  | zero => exact ⟨rfl, hs⟩
  | succ n ih =>
    rw [Function.iterate_succ_apply']
    have := drainBody_paused (drainBody^[n] s) (by rw [iterate_Paused]; exact hp) ih.2
    exact ⟨this.1.trans ih.1, this.2⟩

theorem iterate_singleStep (n : ℕ) (s : Loop) (hp : s.Paused = true)
    (hs : s.SingleStep = true) :
    (drainBody^[n + 1] s).scene.World.steps = s.scene.World.steps ++ [expectedFrameTime]
    ∧ (drainBody^[n + 1] s).SingleStep = false := by
  rw [Function.iterate_succ_apply]
  have h1 := drainBody_singleStep s hp hs
  have h2 := iterate_paused n (drainBody s) (by rw [drainBody_Paused]; exact hp) h1.2
  exact ⟨h2.1.trans h1.1, h2.2⟩

theorem statsWindow_updateAcc (s : Loop) : (statsWindow s).updateAcc = s.updateAcc := by
  unfold statsWindow
  split_ifs <;> rfl

theorem statsWindow_scene (s : Loop) : (statsWindow s).scene = s.scene := by
  unfold statsWindow
  split_ifs <;> rfl

theorem statsWindow_Paused (s : Loop) : (statsWindow s).Paused = s.Paused := by
  unfold statsWindow
  split_ifs <;> rfl

theorem statsWindow_SingleStep (s : Loop) : (statsWindow s).SingleStep = s.SingleStep := by
  unfold statsWindow
  split_ifs <;> rfl

/-- A value from zero to below a finite value is finite and non-negative. -/
theorem eq_fin_of_lt (x : F64) (b : Int) (h0 : (0 : F64) ≤ x) (h1 : x < F64.fin b) :
    ∃ a : Nat, x = F64.fin (a : Int) ∧ (a : Int) < b := by
  rw [F64.zero_eq] at h0
  cases x with
  | fin n =>
    rw [F64.fin_le_fin] at h0
    rw [F64.fin_lt_fin] at h1
    exact ⟨n.toNat, by rw [Int.toNat_of_nonneg h0], by rw [Int.toNat_of_nonneg h0]; exact h1⟩
  | inf s =>
    cases s
    · exact (Bool.false_ne_true h1).elim
    · exact (Bool.false_ne_true h0).elim
  | nan => exact (Bool.false_ne_true h0).elim

theorem delta_cases (d : F64) (h0 : (0 : F64) ≤ d) (h1 : d ≤ maxDelta) :
    ∃ n : Nat, d = F64.fin (n : Int) ∧ n ≤ deltaUnits := by
  rw [maxDelta_eq] at h1
  obtain ⟨n, hn, hle⟩ := F64.eq_fin_of_le d _ h0 h1
  exact ⟨n, hn, by exact_mod_cast hle⟩

theorem fin_nonneg (b : Nat) : (0 : F64) ≤ F64.fin (b : Int) := by
  rw [F64.zero_eq, F64.fin_le_fin]
  exact Int.natCast_nonneg b

theorem fin_lt_step (b : Nat) (h : b < stepUnits) : F64.fin (b : Int) < expectedFrameTime := by
  rw [expectedFrameTime_eq, F64.fin_lt_fin]
  exact_mod_cast h

theorem not_ge_step (b : Nat) (h : b < stepUnits) :
    ¬ F64.fin (b : Int) ≥ expectedFrameTime := by
  rw [expectedFrameTime_eq]
  intro hge
  have := (F64.fin_le_fin _ _).mp hge
  omega

/-- One iteration from finite non-negative values with exact sum up to a
bound `B <= sumBound`: the drain loop ends after some `k` passes, and the end
value differs from `updateAcc + dt - k * expectedFrameTime` by at most `k + 1`
rounding errors. -/
theorem iteration_spec (B : Nat) (hB : B ≤ sumBound) (s : Loop) (dt : F64) (a d : Nat)
    (hs : s.updateAcc = F64.fin (a : Int)) (hd : dt = F64.fin (d : Int)) (h : a + d ≤ B) :
    ∃ k b : Nat,
      (∀ fuel, k ≤ fuel →
        iteration fuel s dt = some (statsWindow (drainBody^[k] (accumulate s dt))))
      ∧ (∀ j < k, (drainBody^[j] (accumulate s dt)).updateAcc ≥ expectedFrameTime)
      ∧ (drainBody^[k] (accumulate s dt)).updateAcc = F64.fin (b : Int) ∧ b < stepUnits
      ∧ b + k * stepUnits ≤ a + d + (k + 1) * ((B + B / 2 ^ 53) / 2 ^ 53)
      ∧ a + d ≤ b + k * stepUnits + (k + 1) * ((B + B / 2 ^ 53) / 2 ^ 53) := by
  obtain ⟨e1, e2, e3, e4, e5⟩ := add_fin B a d hB h
  have hacc : (accumulate s dt).updateAcc = F64.fin (F64.roundNat (a + d) : Int) := by
    show s.updateAcc + dt = _
    rw [hs, hd, e1]
  obtain ⟨k, b, hk, hj, hb, hlt, hup, hlo⟩ :=
    drain_spec (B + B / 2 ^ 53) e3 _ (accumulate s dt) hacc e2
  have hmono : B / 2 ^ 53 ≤ (B + B / 2 ^ 53) / 2 ^ 53 :=
    Nat.div_le_div_right (Nat.le_add_right _ _)
  refine ⟨k, b, ?_, hj, hb, hlt, ?_, ?_⟩
  · intro fuel hf
    unfold iteration
    rw [hk fuel hf]
    rfl
  · rw [Nat.add_mul, Nat.one_mul]
    omega
  · rw [Nat.add_mul, Nat.one_mul]
    omega

theorem toRat_fin (n : Nat) : F64.toRat (F64.fin (n : Int)) = (n : ℚ) / (unitsPerSecond : ℚ) := by
  rw [F64.toRat]
  simp [F64.units]

theorem unitsPerSecond_pos : 0 < unitsPerSecond := by decide!

/-- The bound on one rounding error, as a fraction of the exact sum. -/
theorem err_le (x : Nat) : (((x + x / 2 ^ 53) / 2 ^ 53 : ℕ) : ℚ) ≤ (x : ℚ) / 2 ^ 52 := by
  have h1 : (((x + x / 2 ^ 53) / 2 ^ 53 : ℕ) : ℚ) ≤ ((x + x / 2 ^ 53 : ℕ) : ℚ) / 2 ^ 53 := by
    have := @Nat.cast_div_le ℚ _ (x + x / 2 ^ 53) (2 ^ 53)
    simpa using this
  have h2 : ((x / 2 ^ 53 : ℕ) : ℚ) ≤ (x : ℚ) := by
    exact_mod_cast Nat.div_le_self x (2 ^ 53)
  have h3 : ((x + x / 2 ^ 53 : ℕ) : ℚ) / 2 ^ 53 ≤ ((x : ℚ) + x) / 2 ^ 53 := by
    apply div_le_div_of_nonneg_right _ (by positivity)
    push_cast
    linarith
  have h4 : ((x : ℚ) + x) / 2 ^ 53 = (x : ℚ) / 2 ^ 52 := by
    field_simp
    ring
  linarith

/-- C9 as amended: an iteration started with 0 <= updateAcc < expectedFrameTime
and a delta 0 <= dt <= 2^47 seconds, paused or not, ends: the drain loop runs
its body some k times (the guard holds before each of the k runs and fails
after the last), the iteration ends with 0 <= updateAcc < expectedFrameTime,
and the end value is updateAcc + dt - k * expectedFrameTime up to a rounding
error of at most (k + 1) * (updateAcc + dt) / 2^52, values taken exactly. -/
theorem iteration_updateAcc_bounded (s : Loop) (dt : F64) (h0 : 0 ≤ s.updateAcc)
    (h1 : s.updateAcc < expectedFrameTime) (hdt : 0 ≤ dt) (hmax : dt ≤ maxDelta) :
    ∃ k : ℕ, (∀ j < k, (drainBody^[j] (accumulate s dt)).updateAcc ≥ expectedFrameTime)
      ∧ ¬ (drainBody^[k] (accumulate s dt)).updateAcc ≥ expectedFrameTime
      ∧ ∀ fuel, k ≤ fuel → ∃ r : Loop, iteration fuel s dt = some r
          ∧ r = statsWindow (drainBody^[k] (accumulate s dt))
          ∧ 0 ≤ r.updateAcc ∧ r.updateAcc < expectedFrameTime
          ∧ |F64.toRat r.updateAcc + k * F64.toRat expectedFrameTime
                - (F64.toRat s.updateAcc + F64.toRat dt)|
              ≤ (k + 1) * (F64.toRat s.updateAcc + F64.toRat dt) / 2 ^ 52 := by
  rw [expectedFrameTime_eq] at h1
  obtain ⟨a, ha, hlt⟩ := eq_fin_of_lt _ _ h0 h1
  obtain ⟨d, hd, hle⟩ := delta_cases dt hdt hmax
  have ha' : a < stepUnits := by exact_mod_cast hlt
  have hsum : a + d ≤ sumBound := by
    have := stepUnits_le
    have := sumBound_eq
    omega
  obtain ⟨k, b, hk, hj, hb, hb', hup, hlo⟩ := iteration_spec (a + d) hsum s dt a d ha hd le_rfl
  refine ⟨k, hj, by rw [hb]; exact not_ge_step b hb', ?_⟩
  intro fuel hf
  refine ⟨_, hk fuel hf, rfl, ?_, ?_, ?_⟩
  · rw [statsWindow_updateAcc, hb]
    exact fin_nonneg b
  · rw [statsWindow_updateAcc, hb]
    exact fin_lt_step b hb'
  · rw [statsWindow_updateAcc, hb, ha, hd, expectedFrameTime_eq, toRat_fin, toRat_fin,
      toRat_fin, toRat_fin]
    have hU : (0 : ℚ) < (unitsPerSecond : ℚ) := by exact_mod_cast unitsPerSecond_pos
    have herr := err_le (a + d)
    generalize ((a + d + (a + d) / 2 ^ 53) / 2 ^ 53 : ℕ) = η at hup hlo herr
    have hup' : (b : ℚ) + k * stepUnits ≤ a + d + (k + 1) * η := by exact_mod_cast hup
    have hlo' : (a : ℚ) + d ≤ b + k * stepUnits + (k + 1) * η := by exact_mod_cast hlo
    have hk0 : (0 : ℚ) ≤ (k : ℚ) + 1 := by positivity
    have hη : ((k : ℚ) + 1) * η ≤ ((k : ℚ) + 1) * (((a + d : ℕ) : ℚ) / 2 ^ 52) :=
      mul_le_mul_of_nonneg_left herr hk0
    push_cast at hη
    have e : (b : ℚ) / unitsPerSecond + k * ((stepUnits : ℚ) / unitsPerSecond)
        - ((a : ℚ) / unitsPerSecond + (d : ℚ) / unitsPerSecond)
        = ((b : ℚ) + k * stepUnits - (a + d)) / unitsPerSecond := by
      field_simp
    have e' : ((k : ℚ) + 1) * ((a : ℚ) / unitsPerSecond + (d : ℚ) / unitsPerSecond) / 2 ^ 52
        = (((k : ℚ) + 1) * (((a : ℚ) + d) / 2 ^ 52)) / unitsPerSecond := by
      field_simp
      left
      ring
    rw [e, e', abs_div, abs_of_pos hU]
    apply div_le_div_of_nonneg_right _ hU.le
    rw [abs_le]
    constructor <;> linarith

theorem iteration_updateAcc_bounded_witness :
    ∃ k : ℕ,
      (∀ j < k, (drainBody^[j] (accumulate (Loop.init true) (F64.ofFrac 1 10))).updateAcc
        ≥ expectedFrameTime)
      ∧ ¬ (drainBody^[k] (accumulate (Loop.init true) (F64.ofFrac 1 10))).updateAcc
        ≥ expectedFrameTime
      ∧ ∀ fuel, k ≤ fuel → ∃ r : Loop, iteration fuel (Loop.init true) (F64.ofFrac 1 10) = some r
          ∧ r = statsWindow (drainBody^[k] (accumulate (Loop.init true) (F64.ofFrac 1 10)))
          ∧ 0 ≤ r.updateAcc ∧ r.updateAcc < expectedFrameTime
          ∧ |F64.toRat r.updateAcc + k * F64.toRat expectedFrameTime
                - (F64.toRat (Loop.init true).updateAcc + F64.toRat (F64.ofFrac 1 10))|
              ≤ (k + 1) * (F64.toRat (Loop.init true).updateAcc + F64.toRat (F64.ofFrac 1 10))
                  / 2 ^ 52 :=
  iteration_updateAcc_bounded (Loop.init true) (F64.ofFrac 1 10) (by decide!) (by decide!)
    (by decide!) (by decide!)

theorem drain_stuck (x : F64) (hge : x ≥ expectedFrameTime) (hsub : x - expectedFrameTime = x)
    (fuel : Nat) : ∀ s : Loop, s.updateAcc = x → drain fuel s = none := by
  induction fuel with
  | zero =>
    intro s hs
    simp [drain, hs, hge]
  | succ fuel ih =>
    intro s hs
    rw [drain_of_ge fuel s (by rw [hs]; exact hge)]
    exact ih (drainBody s) (by rw [drainBody_updateAcc, hs, hsub])

/-- C9 at updateAcc = 0.  With dt = 1 the drain loop runs 30 times and leaves
updateAcc = 15 * 2^(-56), which is neither 0 + 1 - 30 * (1/30) = 0 nor
0 + 1 - 30 * expectedFrameTime = 2^(-56).  With dt = 2^53 the subtraction of
expectedFrameTime rounds back to 2^53 and the drain loop does not end, for any
bound on the number of passes. -/
theorem drain_rounding_example :
    (drain 30 (accumulate (Loop.init false) 1)
        = some (drainBody^[30] (accumulate (Loop.init false) 1))
      ∧ (iteration 30 (Loop.init false) 1).map (fun r => r.updateAcc)
        = some (F64.ofFrac 15 (2 ^ 56))
      ∧ F64.ofFrac 15 (2 ^ 56) ≠ 0
      ∧ F64.ofFrac 15 (2 ^ 56) ≠ F64.ofFrac 1 (2 ^ 56))
    ∧ ∀ fuel, iteration fuel (Loop.init false) (F64.ofFrac (2 ^ 53) 1) = none := by
  refine ⟨by decide!, ?_⟩
  intro fuel
  unfold iteration
  rw [drain_stuck (F64.ofFrac (2 ^ 53) 1) (by decide!) (by decide!) fuel _ (by decide!)]
  rfl

/-! ### Runs -/

theorem run_cons (fuel : Nat) (s : Loop) (d : F64) (ds : List F64) :
    run fuel s (d :: ds) = (iteration fuel s d).bind (fun r => run fuel r ds) := rfl

theorem run_append_singleton (fuel : Nat) (ds : List F64) (d : F64) : ∀ s : Loop,
    run fuel s (ds ++ [d]) = (run fuel s ds).bind (fun r => iteration fuel r d) := by
  induction ds with
  | nil =>
    intro s
    show (iteration fuel s d).bind (fun r => some r) = iteration fuel s d
    cases iteration fuel s d <;> rfl
  | cons x xs ih =>
    intro s
    rw [List.cons_append, run_cons, run_cons]
    cases iteration fuel s x with
    | none => rfl
    | some r => exact ih r

theorem run_unpaused (ds : List F64) : ∀ (s : Loop) (a : Nat), s.Paused = false →
    s.updateAcc = F64.fin (a : Int) → a < stepUnits →
    (∀ d ∈ ds, (0 : F64) ≤ d ∧ d ≤ maxDelta) →
    ∃ (F k b : Nat) (r : Loop), (∀ fuel, F ≤ fuel → run fuel s ds = some r)
      ∧ r.scene.World.steps = s.scene.World.steps ++ List.replicate k expectedFrameTime
      ∧ r.updateAcc = F64.fin (b : Int) ∧ b < stepUnits := by
  induction ds with
  | nil =>
    intro s a _ hs ha _
    exact ⟨0, 0, a, s, fun _ _ => rfl, by simp, hs, ha⟩
  | cons d ds ih =>
    intro s a hp hs ha hds
    obtain ⟨hd0, hd1⟩ := hds d (List.mem_cons_self d ds)
    obtain ⟨n, hn, hle⟩ := delta_cases d hd0 hd1
    have hsum : a + n ≤ sumBound := by
      have := stepUnits_le
      have := sumBound_eq
      omega
    obtain ⟨k1, b1, hk1, _, hb1, hlt1, _, _⟩ :=
      iteration_spec sumBound le_rfl s d a n hs hn hsum
    have hp1 : (statsWindow (drainBody^[k1] (accumulate s d))).Paused = false := by
      rw [statsWindow_Paused, iterate_Paused]
      exact hp
    have hu1 : (statsWindow (drainBody^[k1] (accumulate s d))).updateAcc = F64.fin (b1 : Int) := by
      rw [statsWindow_updateAcc, hb1]
    have hst1 : (statsWindow (drainBody^[k1] (accumulate s d))).scene.World.steps
        = s.scene.World.steps ++ List.replicate k1 expectedFrameTime := by
      rw [statsWindow_scene, iterate_steps_unpaused k1 (accumulate s d) hp]
      rfl
    obtain ⟨F2, k2, b2, r, hr, hst2, hb2, hlt2⟩ := ih _ b1 hp1 hu1 hlt1
      (fun x hx => hds x (List.mem_cons_of_mem d hx))
    refine ⟨max k1 F2, k1 + k2, b2, r, ?_, ?_, hb2, hlt2⟩
    · intro fuel hf
      rw [run_cons, hk1 fuel (le_trans (le_max_left _ _) hf)]
      exact hr fuel (le_trans (le_max_right _ _) hf)
    · rw [hst2, hst1, List.append_assoc, List.replicate_add]

/-- From updateAcc = 0 and Paused = false, for every list of deltas with
0 <= delta <= 2^47 seconds every iteration ends, and every call of
Scene.Update the run makes receives dt = expectedFrameTime. -/
theorem run_update_dt (s : Loop) (ds : List F64) (h0 : s.updateAcc = 0)
    (hp : s.Paused = false) (hds : ∀ d ∈ ds, (0 : F64) ≤ d ∧ d ≤ maxDelta) :
    ∃ (F k : Nat) (r : Loop), (∀ fuel, F ≤ fuel → run fuel s ds = some r)
      ∧ r.scene.World.steps = s.scene.World.steps ++ List.replicate k expectedFrameTime := by
  rw [F64.zero_eq] at h0
  obtain ⟨F, k, _, r, hr, hst, _, _⟩ := run_unpaused ds s 0 hp h0 stepUnits_pos hds
  exact ⟨F, k, r, hr, hst⟩

/-- C2 at updateAcc = 0, Paused = false and the single delta 2.0, which is
exactly 60 * (1/30): the drain loop ends after 59 passes (58 are not enough)
and the run calls Scene.Update 59 times, not 60. -/
theorem run_two_seconds :
    (2 : F64) = F64.ofFrac 60 30
    ∧ (run 59 (Loop.init false) [2]).map (fun r => r.scene.World.steps)
        = some (List.replicate 59 expectedFrameTime)
    ∧ run 58 (Loop.init false) [2] = none
    ∧ (List.replicate 59 expectedFrameTime).length ≠ 60 := by decide!

/-! ### Single step -/

/-- C8 at Paused = true, SingleStep = true, updateAcc = 0 and dt = 0.01: the
iteration does not call Scene.Update and SingleStep is still true. -/
theorem singleStep_kept_example :
    (iteration 0 { Loop.init true with SingleStep := true } (F64.ofFrac 1 100)).map
        (fun r => (r.scene.World.steps, r.SingleStep))
      = some ([], true) := by decide!

/-- C8 as amended: an iteration that starts with Paused = true and SingleStep =
true, with 0 <= updateAcc <= 2^47 and 0 <= dt <= 2^47 seconds, ends; when the
float64 sum updateAcc + dt is at least expectedFrameTime it calls Scene.Update
exactly once, with dt = expectedFrameTime, and ends with SingleStep = false;
otherwise it does not call Scene.Update and SingleStep is still true. -/
theorem iteration_singleStep (s : Loop) (dt : F64) (hp : s.Paused = true)
    (hs : s.SingleStep = true) (h0 : 0 ≤ s.updateAcc) (h1 : s.updateAcc ≤ maxDelta)
    (hd0 : 0 ≤ dt) (hd1 : dt ≤ maxDelta) :
    ∃ k : Nat, ∀ fuel, k ≤ fuel → ∃ r : Loop, iteration fuel s dt = some r
      ∧ (s.updateAcc + dt ≥ expectedFrameTime →
          r.scene.World.steps = s.scene.World.steps ++ [expectedFrameTime]
          ∧ r.SingleStep = false)
      ∧ (¬ s.updateAcc + dt ≥ expectedFrameTime →
          r.scene.World.steps = s.scene.World.steps ∧ r.SingleStep = true) := by
  obtain ⟨a, ha, hale⟩ := delta_cases _ h0 h1
  obtain ⟨d, hd, hdle⟩ := delta_cases _ hd0 hd1
  have hsum : a + d ≤ sumBound := by
    have := sumBound_eq
    omega
  obtain ⟨k, b, hk, hj, hb, hlt, _, _⟩ := iteration_spec sumBound le_rfl s dt a d ha hd hsum
  refine ⟨k, fun fuel hf => ⟨_, hk fuel hf, ?_, ?_⟩⟩
  · intro hge
    rw [statsWindow_scene, statsWindow_SingleStep]
    cases k with
    | zero =>
      exfalso
      have hb' : (accumulate s dt).updateAcc = F64.fin (b : Int) := hb
      have hge' : (accumulate s dt).updateAcc ≥ expectedFrameTime := hge
      rw [hb'] at hge'
      exact not_ge_step b hlt hge'
    | succ k => exact iterate_singleStep k (accumulate s dt) hp hs
  · intro hnge
    rw [statsWindow_scene, statsWindow_SingleStep]
    cases k with
    | zero => exact ⟨rfl, hs⟩
    | succ k => exact absurd (hj 0 (Nat.succ_pos k)) hnge

theorem iteration_singleStep_witness :
    ∃ k : Nat, ∀ fuel, k ≤ fuel → ∃ r : Loop,
      iteration fuel { Loop.init true with SingleStep := true } (F64.ofFrac 1 10) = some r
      ∧ (({ Loop.init true with SingleStep := true } : Loop).updateAcc + F64.ofFrac 1 10
            ≥ expectedFrameTime →
          r.scene.World.steps
            = ({ Loop.init true with SingleStep := true } : Loop).scene.World.steps
              ++ [expectedFrameTime]
          ∧ r.SingleStep = false)
      ∧ (¬ ({ Loop.init true with SingleStep := true } : Loop).updateAcc + F64.ofFrac 1 10
            ≥ expectedFrameTime →
          r.scene.World.steps
            = ({ Loop.init true with SingleStep := true } : Loop).scene.World.steps
          ∧ r.SingleStep = true) :=
  iteration_singleStep { Loop.init true with SingleStep := true } (F64.ofFrac 1 10) rfl rfl
    (by decide!) (by decide!) (by decide!) (by decide!)

/-! ### Counting the calls of Scene.Update -/

theorem countDelta_eq : countDelta = F64.fin (countUnits : Int) := by decide!

theorem countBound_le : stepUnits + countUnits ≤ sumBound := by decide!

theorem unitsPerSecond_eq : unitsPerSecond = 30 * stepUnits + stepSlack := by decide!

theorem countUnits_eq : countUnits = 1024 * unitsPerSecond := by decide!

theorem roundErr_small :
    30 * (32212254720 + 1048576 + 1) * roundErr + 32212254720 * stepSlack < 30 * stepUnits := by
  decide!

theorem roundErr_eq :
    roundErr = (stepUnits + countUnits + (stepUnits + countUnits) / 2 ^ 53) / 2 ^ 53 := by
  decide!

theorem count_cases (d : F64) (h0 : (0 : F64) ≤ d) (h1 : d ≤ countDelta) :
    ∃ n : Nat, d = F64.fin (n : Int) ∧ n ≤ countUnits := by
  rw [countDelta_eq] at h1
  obtain ⟨n, hn, hle⟩ := F64.eq_fin_of_le d _ h0 h1
  exact ⟨n, hn, by exact_mod_cast hle⟩

/-- A run from a non-paused state with deltas up to `countDelta`: the calls of
`Scene.Update` and the exact account of the accumulator. -/
theorem run_accounting (ds : List F64) : ∀ (s : Loop) (a : Nat), s.Paused = false →
    s.updateAcc = F64.fin (a : Int) → a < stepUnits →
    (∀ d ∈ ds, (0 : F64) ≤ d ∧ d ≤ countDelta) →
    ∃ (F k b : Nat) (r : Loop), (∀ fuel, F ≤ fuel → run fuel s ds = some r)
      ∧ r.scene.World.steps = s.scene.World.steps ++ List.replicate k expectedFrameTime
      ∧ r.updateAcc = F64.fin (b : Int) ∧ b < stepUnits
      ∧ (b : ℤ) + k * stepUnits ≤ a + (ds.map F64.units).sum + (k + ds.length) * roundErr
      ∧ (a : ℤ) + (ds.map F64.units).sum ≤ b + k * stepUnits + (k + ds.length) * roundErr
      ∧ 0 ≤ (ds.map F64.units).sum
      ∧ (ds.map F64.units).sum ≤ ds.length * countUnits := by
  induction ds with
  | nil =>
    intro s a _ hs ha _
    exact ⟨0, 0, a, s, fun _ _ => rfl, by simp, hs, ha, by simp, by simp, by simp, by simp⟩
  | cons d ds ih =>
    intro s a hp hs ha hds
    obtain ⟨hd0, hd1⟩ := hds d (List.mem_cons_self d ds)
    obtain ⟨n, hn, hle⟩ := count_cases d hd0 hd1
    obtain ⟨k1, b1, hk1, _, hb1, hlt1, hup1, hlo1⟩ :=
      iteration_spec (stepUnits + countUnits) countBound_le s d a n hs hn (by omega)
    have hp1 : (statsWindow (drainBody^[k1] (accumulate s d))).Paused = false := by
      rw [statsWindow_Paused, iterate_Paused]
      exact hp
    have hu1 : (statsWindow (drainBody^[k1] (accumulate s d))).updateAcc = F64.fin (b1 : Int) := by
      rw [statsWindow_updateAcc, hb1]
    have hst1 : (statsWindow (drainBody^[k1] (accumulate s d))).scene.World.steps
        = s.scene.World.steps ++ List.replicate k1 expectedFrameTime := by
      rw [statsWindow_scene, iterate_steps_unpaused k1 (accumulate s d) hp]
      rfl
    obtain ⟨F2, k2, b2, r, hr, hst2, hb2, hlt2, hup2, hlo2, hs0, hs1⟩ := ih _ b1 hp1 hu1 hlt1
      (fun x hx => hds x (List.mem_cons_of_mem d hx))
    have hu : F64.units d = (n : ℤ) := by rw [hn]; rfl
    rw [← roundErr_eq] at hup1 hlo1
    have hup1' : (b1 : ℤ) + k1 * stepUnits ≤ a + n + (k1 + 1) * roundErr := by
      exact_mod_cast hup1
    have hlo1' : (a : ℤ) + n ≤ b1 + k1 * stepUnits + (k1 + 1) * roundErr := by
      exact_mod_cast hlo1
    have hle' : (n : ℤ) ≤ countUnits := by exact_mod_cast hle
    refine ⟨max k1 F2, k1 + k2, b2, r, ?_, ?_, hb2, hlt2, ?_, ?_, ?_, ?_⟩
    · intro fuel hf
      rw [run_cons, hk1 fuel (le_trans (le_max_left _ _) hf)]
      exact hr fuel (le_trans (le_max_right _ _) hf)
    · rw [hst2, hst1, List.append_assoc, List.replicate_add]
    · rw [List.map_cons, List.sum_cons, List.length_cons, hu]
      push_cast
      linarith
    · rw [List.map_cons, List.sum_cons, List.length_cons, hu]
      push_cast
      linarith
    · rw [List.map_cons, List.sum_cons, hu]
      have : (0 : ℤ) ≤ n := Int.natCast_nonneg n
      linarith
    · rw [List.map_cons, List.sum_cons, List.length_cons, hu]
      push_cast
      linarith

theorem toRat_sum (ds : List F64) :
    (ds.map F64.toRat).sum = (((ds.map F64.units).sum : ℤ) : ℚ) / (unitsPerSecond : ℚ) := by
  induction ds with
  | nil => simp
  | cons d ds ih =>
    rw [List.map_cons, List.sum_cons, ih, List.map_cons, List.sum_cons, F64.toRat]
    push_cast
    rw [add_div]

/-- C2 as amended: from updateAcc = 0 and Paused = false, for every N >= 0 and
every list of at most 2^20 deltas, each with 0 <= delta <= 1024 seconds, whose
exact sum is N * (1/30), every iteration ends and the run calls Scene.Update
exactly N or exactly N - 1 times, each time with dt = expectedFrameTime. -/
theorem run_update_count (s : Loop) (N : ℕ) (ds : List F64) (h0 : s.updateAcc = 0)
    (hp : s.Paused = false) (hds : ∀ d ∈ ds, (0 : F64) ≤ d ∧ d ≤ countDelta)
    (hlen : ds.length ≤ 2 ^ 20) (hsum : (ds.map F64.toRat).sum = N * (1 / 30)) :
    ∃ (F k : Nat) (r : Loop), (∀ fuel, F ≤ fuel → run fuel s ds = some r)
      ∧ r.scene.World.steps = s.scene.World.steps ++ List.replicate k expectedFrameTime
      ∧ (k = N ∨ k + 1 = N) := by
  rw [F64.zero_eq] at h0
  obtain ⟨F, k, b, r, hr, hst, _, hlt, hup, hlo, hs0, hs1⟩ :=
    run_accounting ds s 0 hp h0 stepUnits_pos hds
  refine ⟨F, k, r, hr, hst, ?_⟩
  rw [toRat_sum] at hsum
  generalize (ds.map F64.units).sum = S at hup hlo hs0 hs1 hsum
  -- the exact sum, in units
  have hpos : (0 : ℚ) < (unitsPerSecond : ℚ) := by
    have : 0 < unitsPerSecond := by rw [unitsPerSecond_eq]; have := stepUnits_pos; omega
    exact_mod_cast this
  have hS : 30 * S = N * ((30 * stepUnits + stepSlack : ℕ) : ℤ) := by
    have h1 : (S : ℚ) * 30 = N * (unitsPerSecond : ℚ) := by
      field_simp at hsum
      linarith
    rw [← unitsPerSecond_eq]
    have h2 : ((30 * S : ℤ) : ℚ) = ((N * (unitsPerSecond : ℤ) : ℤ) : ℚ) := by
      push_cast
      linarith
    exact_mod_cast h2
  push_cast at hS
  have hlen' : (ds.length : ℤ) ≤ 1048576 := by
    have : ds.length ≤ 1048576 := by
      have e : (2 : ℕ) ^ 20 = 1048576 := by norm_num
      omega
    exact_mod_cast this
  have hsmall : (30 * (32212254720 + 1048576 + 1) * roundErr + 32212254720 * stepSlack : ℤ)
      < 30 * stepUnits := by exact_mod_cast roundErr_small
  have hcu : (countUnits : ℤ) = 1024 * (30 * stepUnits + stepSlack) := by
    have := countUnits_eq
    rw [unitsPerSecond_eq] at this
    exact_mod_cast this
  have he : (0 : ℤ) < stepUnits := by exact_mod_cast stepUnits_pos
  have hη : (0 : ℤ) ≤ roundErr := Int.natCast_nonneg _
  have hc : (0 : ℤ) ≤ stepSlack := Int.natCast_nonneg _
  have hN0 : (0 : ℤ) ≤ N := Int.natCast_nonneg _
  have hk0 : (0 : ℤ) ≤ k := Int.natCast_nonneg _
  have hb0 : (0 : ℤ) ≤ b := Int.natCast_nonneg _
  have hbe : (b : ℤ) < stepUnits := by exact_mod_cast hlt
  have hn0 : (0 : ℤ) ≤ ds.length := Int.natCast_nonneg _
  -- every product is expanded so that the rest is linear in the products
  have hS' : 30 * S = 30 * ((N : ℤ) * stepUnits) + (N : ℤ) * stepSlack := by
    rw [hS]; ring
  have hup' : (b : ℤ) + k * stepUnits ≤ S + ((k : ℤ) * roundErr + ds.length * roundErr) := by
    have e : ((k : ℤ) + ds.length) * roundErr = k * roundErr + ds.length * roundErr := by ring
    rw [← e]
    simpa using hup
  have hlo' : S ≤ (b : ℤ) + k * stepUnits + ((k : ℤ) * roundErr + ds.length * roundErr) := by
    have e : ((k : ℤ) + ds.length) * roundErr = k * roundErr + ds.length * roundErr := by ring
    rw [← e]
    simpa using hlo
  have hs1' : S ≤ 1024 * (30 * ((ds.length : ℤ) * stepUnits) + (ds.length : ℤ) * stepSlack) := by
    rw [hcu] at hs1
    have e : (ds.length : ℤ) * (1024 * (30 * stepUnits + stepSlack))
        = 1024 * (30 * ((ds.length : ℤ) * stepUnits) + (ds.length : ℤ) * stepSlack) := by ring
    rw [← e]
    exact hs1
  have e1 : (N : ℤ) * stepUnits ≥ 0 := mul_nonneg hN0 he.le
  have e2 : (N : ℤ) * stepSlack ≥ 0 := mul_nonneg hN0 hc
  have e3 : (ds.length : ℤ) * stepUnits ≤ 1048576 * stepUnits :=
    mul_le_mul_of_nonneg_right hlen' he.le
  have e4 : (ds.length : ℤ) * stepSlack ≤ 1048576 * stepSlack :=
    mul_le_mul_of_nonneg_right hlen' hc
  have e5 : (ds.length : ℤ) * roundErr ≤ 1048576 * roundErr :=
    mul_le_mul_of_nonneg_right hlen' hη
  have e5' : (0 : ℤ) ≤ (ds.length : ℤ) * roundErr := mul_nonneg hn0 hη
  have hη_lt : (roundErr : ℤ) < stepUnits := by linarith
  -- N is at most 30 * 2^30
  have hNle : (N : ℤ) ≤ 32212254720 := by
    by_contra hcon
    push_neg at hcon
    have h1 : (32212254720 + 1) * (stepUnits : ℤ) ≤ N * stepUnits :=
      mul_le_mul_of_nonneg_right (by linarith) he.le
    have h2 : (32212254720 + 1) * (stepSlack : ℤ) ≤ N * stepSlack :=
      mul_le_mul_of_nonneg_right (by linarith) hc
    linarith
  have e6 : (N : ℤ) * roundErr ≤ 32212254720 * roundErr :=
    mul_le_mul_of_nonneg_right hNle hη
  have e7 : (N : ℤ) * stepSlack ≤ 32212254720 * stepSlack :=
    mul_le_mul_of_nonneg_right hNle hc
  have hkN : k ≤ N := by
    by_contra hcon
    push_neg at hcon
    have h1 : (N : ℤ) + 1 ≤ k := by exact_mod_cast hcon
    have h2 : ((N : ℤ) + 1) * (stepUnits - roundErr) ≤ k * (stepUnits - roundErr) :=
      mul_le_mul_of_nonneg_right h1 (by linarith)
    have h3 : ((N : ℤ) + 1) * (stepUnits - roundErr)
        = N * stepUnits - N * roundErr + stepUnits - roundErr := by ring
    have h4 : (k : ℤ) * (stepUnits - roundErr) = k * stepUnits - k * roundErr := by ring
    rw [h3, h4] at h2
    linarith
  have hNk : N ≤ k + 1 := by
    by_contra hcon
    push_neg at hcon
    have h1 : (k : ℤ) + 2 ≤ N := by exact_mod_cast hcon
    have h2 : ((k : ℤ) + 2) * stepUnits ≤ N * stepUnits :=
      mul_le_mul_of_nonneg_right h1 he.le
    have h3 : (k : ℤ) * roundErr ≤ N * roundErr :=
      mul_le_mul_of_nonneg_right (by linarith) hη
    have h4 : ((k : ℤ) + 2) * stepUnits = k * stepUnits + 2 * stepUnits := by ring
    rw [h4] at h2
    linarith
  omega

theorem units_one : F64.units 1 = (unitsPerSecond : ℤ) := by decide!

theorem toRat_one : F64.toRat 1 = 1 := by
  have hpos : 0 < unitsPerSecond := by
    rw [unitsPerSecond_eq]
    have := stepUnits_pos
    omega
  have hne : (unitsPerSecond : ℚ) ≠ 0 := by exact_mod_cast hpos.ne'
  rw [F64.toRat, units_one]
  push_cast
  exact div_self hne

theorem run_update_count_witness :
    ∃ (F k : Nat) (r : Loop), (∀ fuel, F ≤ fuel → run fuel (Loop.init false) [1, 1] = some r)
      ∧ r.scene.World.steps
        = (Loop.init false).scene.World.steps ++ List.replicate k expectedFrameTime
      ∧ (k = 60 ∨ k + 1 = 60) :=
  run_update_count (Loop.init false) 60 [1, 1] rfl rfl (by decide!) (by decide)
    (by
      simp only [List.map_cons, List.map_nil, List.sum_cons, List.sum_nil, toRat_one]
      norm_num)

/-! ### The stats window -/

theorem F64.not_lt_of_le (a b : F64) (h : a ≤ b) : ¬ b < a := by
  intro h'
  have h1 : F64.le a b = true := h
  have h2 : F64.lt b a = true := h'
  cases a with
  | fin x =>
    cases b with
    | fin y =>
      simp only [F64.le, F64.lt, decide_eq_true_eq] at h1 h2
      omega
    | inf t => cases t <;> simp [F64.le, F64.lt] at h1 h2
    | nan => simp [F64.le] at h1
  | inf s =>
    cases b with
    | fin y => cases s <;> simp [F64.le, F64.lt] at h1 h2
    | inf t => cases s <;> cases t <;> simp [F64.le, F64.lt] at h1 h2
    | nan => simp [F64.le] at h1
  | nan => simp [F64.le] at h1

theorem wrapInt_succ (n : Nat) (h : n + 1 < 2 ^ 63) : wrapInt ((n : Int) + 1) = ((n + 1 : Nat) : Int) := by
  unfold wrapInt
  have h' : n + 1 < 9223372036854775808 := by
    have e : (2 : Nat) ^ 63 = 9223372036854775808 := by norm_num
    omega
  omega

theorem stats_le_one (k : Nat) (s : Loop) (dt : F64) (h : ¬ s.acc + dt > 1) :
    (statsWindow (drainBody^[k] (accumulate s dt))).fps = s.fps
    ∧ (statsWindow (drainBody^[k] (accumulate s dt))).frameCount = wrapInt (s.frameCount + 1)
    ∧ (statsWindow (drainBody^[k] (accumulate s dt))).acc = s.acc + dt := by
  have hacc : (drainBody^[k] (accumulate s dt)).acc = s.acc + dt := by
    rw [iterate_acc]
    rfl
  unfold statsWindow
  rw [if_neg (by rw [hacc]; exact h), iterate_fps, iterate_frameCount, hacc]
  exact ⟨rfl, rfl, rfl⟩

theorem stats_gt_one (k : Nat) (s : Loop) (dt : F64) (h : s.acc + dt > 1) :
    (statsWindow (drainBody^[k] (accumulate s dt))).fps = wrapInt (s.frameCount + 1)
    ∧ (statsWindow (drainBody^[k] (accumulate s dt))).frameCount = 0 := by
  have hacc : (drainBody^[k] (accumulate s dt)).acc = s.acc + dt := by
    rw [iterate_acc]
    rfl
  unfold statsWindow
  rw [if_pos (by rw [hacc]; exact h)]
  dsimp only
  rw [iterate_frameCount]
  exact ⟨rfl, rfl⟩

theorem run_stats (ds : List F64) : ∀ (s : Loop) (a n : Nat),
    s.updateAcc = F64.fin (a : Int) → a < stepUnits →
    (∀ d ∈ ds, (0 : F64) ≤ d ∧ d ≤ maxDelta) →
    s.frameCount = (n : Int) → n + ds.length < 2 ^ 63 →
    (∀ x ∈ accSums s.acc ds, x ≤ 1) →
    ∃ (F b : Nat) (r : Loop), (∀ fuel, F ≤ fuel → run fuel s ds = some r)
      ∧ r.fps = s.fps ∧ r.frameCount = ((n + ds.length : Nat) : Int)
      ∧ r.acc = ds.foldl (· + ·) s.acc
      ∧ r.updateAcc = F64.fin (b : Int) ∧ b < stepUnits := by
  induction ds with
  | nil =>
    intro s a n hs ha _ hn _ _
    exact ⟨0, a, s, fun _ _ => rfl, rfl, by simpa using hn, rfl, hs, ha⟩
  | cons d ds ih =>
    intro s a n hs ha hds hn hlen hle
    obtain ⟨hd0, hd1⟩ := hds d (List.mem_cons_self d ds)
    obtain ⟨m, hm, hmle⟩ := delta_cases d hd0 hd1
    have hsum : a + m ≤ sumBound := by
      have := stepUnits_le
      have := sumBound_eq
      omega
    obtain ⟨k1, b1, hk1, _, hb1, hlt1, _, _⟩ :=
      iteration_spec sumBound le_rfl s d a m hs hm hsum
    have hno : ¬ s.acc + d > 1 :=
      F64.not_lt_of_le _ _ (hle (s.acc + d) (List.mem_cons_self _ _))
    obtain ⟨e1, e2, e3⟩ := stats_le_one k1 s d hno
    rw [List.length_cons] at hlen
    have e2' : (statsWindow (drainBody^[k1] (accumulate s d))).frameCount
        = ((n + 1 : Nat) : Int) := by
      rw [e2, hn]
      exact wrapInt_succ n (by omega)
    have hu1 : (statsWindow (drainBody^[k1] (accumulate s d))).updateAcc = F64.fin (b1 : Int) := by
      rw [statsWindow_updateAcc, hb1]
    obtain ⟨F2, b2, r, hr, hfps, hfc, hacc, hb2, hlt2⟩ := ih _ b1 (n + 1) hu1 hlt1
      (fun x hx => hds x (List.mem_cons_of_mem d hx)) e2' (by omega)
      (fun x hx => hle x (by
        rw [e3] at hx
        exact List.mem_cons_of_mem _ hx))
    refine ⟨max k1 F2, b2, r, ?_, by rw [hfps, e1], ?_, ?_, hb2, hlt2⟩
    · intro fuel hf
      rw [run_cons, hk1 fuel (le_trans (le_max_left _ _) hf)]
      exact hr fuel (le_trans (le_max_right _ _) hf)
    · rw [hfc, List.length_cons, Nat.add_assoc, Nat.add_comm 1]
    · rw [hacc, e3]
      rfl

/-- C6 at the zeroed state.  After 30 deltas of float64(1/30) acc is below 1,
and after the two deltas 0.5, 0.5 acc is exactly 1.0: in both runs the test
`acc > 1` has never held and fps is still 0, not 30 and not 2. -/
theorem fps_after_one_second :
    (run 2 (Loop.init false) (List.replicate 30 (F64.ofFrac 1 30))).map
        (fun r => (r.fps, r.frameCount, decide (r.acc ≤ 1)))
      = some (0, 30, true)
    ∧ (run 30 (Loop.init false) [F64.ofFrac 1 2, F64.ofFrac 1 2]).map
        (fun r => (r.fps, r.frameCount, r.acc))
      = some (0, 2, 1) := by decide!

/-- C6 as amended: from acc = 0, updateAcc = 0, frameCount = 0 and fps = 0, for
every k >= 1 below 2^63 and every sequence of k deltas with 0 <= delta <= 2^47
seconds for which the float64 running sum acc is at most 1.0 after each of the
first k - 1 deltas and greater than 1.0 after the k-th, every iteration ends,
fps is still 0 after the first k - 1 iterations and fps = k after the k-th. -/
theorem fps_at_first_crossing (s : Loop) (ds : List F64) (d : F64) (hacc : s.acc = 0)
    (hua : s.updateAcc = 0) (hfc : s.frameCount = 0) (hfps : s.fps = 0)
    (hds : ∀ x ∈ ds ++ [d], (0 : F64) ≤ x ∧ x ≤ maxDelta)
    (hlen : (ds ++ [d]).length < 2 ^ 63)
    (hle : ∀ x ∈ accSums 0 ds, x ≤ 1) (hgt : ds.foldl (· + ·) 0 + d > 1) :
    ∃ (F : Nat) (r r' : Loop), ∀ fuel, F ≤ fuel →
      run fuel s ds = some r ∧ r.fps = 0
      ∧ run fuel s (ds ++ [d]) = some r' ∧ r'.fps = ((ds ++ [d]).length : Int) := by
  rw [List.length_append, List.length_singleton] at hlen
  rw [F64.zero_eq] at hua
  obtain ⟨F1, b, r, hr, h1, h2, h3, hb, hlt⟩ := run_stats ds s 0 0 hua stepUnits_pos
    (fun x hx => hds x (List.mem_append_left _ hx)) hfc (by omega) (by rw [hacc]; exact hle)
  obtain ⟨hd0, hd1⟩ := hds d (List.mem_append_right _ (List.mem_singleton_self d))
  obtain ⟨m, hm, hmle⟩ := delta_cases d hd0 hd1
  have hsum : b + m ≤ sumBound := by
    have := stepUnits_le
    have := sumBound_eq
    omega
  obtain ⟨k, _, hk, _, _, _, _, _⟩ := iteration_spec sumBound le_rfl r d b m hb hm hsum
  have hgt' : r.acc + d > 1 := by
    rw [h3, hacc]
    exact hgt
  obtain ⟨g1, _⟩ := stats_gt_one k r d hgt'
  refine ⟨max F1 k, r, statsWindow (drainBody^[k] (accumulate r d)),
    fun fuel hf => ⟨hr fuel (le_trans (le_max_left _ _) hf),
    by rw [h1, hfps], ?_, ?_⟩⟩
  · rw [run_append_singleton, hr fuel (le_trans (le_max_left _ _) hf)]
    exact hk fuel (le_trans (le_max_right _ _) hf)
  · rw [g1, h2, List.length_append, List.length_singleton, Nat.zero_add]
    exact wrapInt_succ ds.length hlen

theorem fps_at_first_crossing_witness :
    ∃ (F : Nat) (r r' : Loop), ∀ fuel, F ≤ fuel →
      run fuel (Loop.init false) [F64.ofFrac 1 2, F64.ofFrac 1 2] = some r ∧ r.fps = 0
      ∧ run fuel (Loop.init false) ([F64.ofFrac 1 2, F64.ofFrac 1 2] ++ [F64.ofFrac 1 50])
          = some r'
      ∧ r'.fps = ((([F64.ofFrac 1 2, F64.ofFrac 1 2] ++ [F64.ofFrac 1 50] : List F64)).length
          : Int) :=
  fps_at_first_crossing (Loop.init false) [F64.ofFrac 1 2, F64.ofFrac 1 2] (F64.ofFrac 1 50)
    rfl rfl rfl rfl (by decide!) (by decide) (by decide!) (by decide!)

/-! ### The update counter -/

/-- C7 on two runs from the zeroed state.  Deltas 1, 0.02: the second
iteration triggers the stats window (acc > 1) with no drain step, and ends
with updateFps = 0 and updateFrameCount = 30, not 30 and 0.  Deltas 1, 0.1:
the second iteration triggers with three drain steps and ends with
updateFps = 1, not 33. -/
theorem updateFps_at_trigger :
    (run 30 (Loop.init false) [1, F64.ofFrac 1 50]).map
        (fun r => (r.updateFps, r.updateFrameCount, r.fps, r.scene.World.steps.length))
      = some (0, 30, 2, 30)
    ∧ (run 30 (Loop.init false) [1, F64.ofFrac 1 10]).map
        (fun r => (r.updateFps, r.updateFrameCount, r.fps, r.scene.World.steps.length))
      = some (1, 0, 2, 33) := by decide!

/-! ### Checks of the arithmetic against known `float64` results -/

/-- Known results of `float64` addition and conversion: 0.1 + 0.2 is
0.30000000000000004; 0.5 + (0.5 + 2^(-53)) rounds to 1.0; 2^53 + 1 rounds to
2^53 and 2^53 + 3 to 2^53 + 4 (ties to even); 10^308 + 10^308 is +Inf; +Inf -
+Inf is NaN, and NaN compares false. -/
theorem F64.arithmetic_examples :
    F64.ofFrac 1 10 + F64.ofFrac 2 10 = F64.ofFrac 30000000000000004 (10 ^ 17)
    ∧ F64.ofFrac 1 10 + F64.ofFrac 2 10 ≠ F64.ofFrac 3 10
    ∧ F64.ofFrac 1 2 + F64.ofFrac (2 ^ 52 + 1) (2 ^ 53) = 1
    ∧ F64.ofFrac (2 ^ 53) 1 + 1 = F64.ofFrac (2 ^ 53) 1
    ∧ F64.ofFrac (2 ^ 53) 1 + 3 = F64.ofFrac (2 ^ 53 + 4) 1
    ∧ F64.ofFrac (10 ^ 308) 1 + F64.ofFrac (10 ^ 308) 1 = F64.inf false
    ∧ F64.inf false - F64.inf false = F64.nan
    ∧ ¬ F64.nan ≤ F64.nan ∧ ¬ F64.nan > 1 := by decide!

/-- More fuel does not change the result of a drain loop that has ended. -/
theorem drain_fuel_mono (fuel : Nat) : ∀ (s r : Loop), drain fuel s = some r →
    drain (fuel + 1) s = some r := by
  induction fuel with
  | zero =>
    intro s r h
    by_cases hg : s.updateAcc ≥ expectedFrameTime
    · simp [drain, hg] at h
    · rw [drain_of_not_ge 0 s hg] at h
      rw [drain_of_not_ge 1 s hg]
      exact h
  | succ fuel ih =>
    intro s r h
    by_cases hg : s.updateAcc ≥ expectedFrameTime
    · rw [drain_of_ge fuel s hg] at h
      rw [drain_of_ge (fuel + 1) s hg]
      exact ih _ r h
    · rw [drain_of_not_ge _ s hg] at h
      rw [drain_of_not_ge _ s hg]
      exact h

/-- The single delta 1.0 makes the drain loop run exactly 30 times. -/
theorem run_one_second :
    (run 30 (Loop.init false) [1]).map (fun r => r.scene.World.steps)
        = some (List.replicate 30 expectedFrameTime)
    ∧ run 29 (Loop.init false) [1] = none := by decide!

end mater
